import Mathlib

/-!
# Verification of the MaskGIT VQGAN tokenizer (`mask_git/networks.py`)

Shallow embedding of the vector-quantized autoencoder in
`src/python/mask_git/networks.py`.  Tensors are embedded with exact
rational arithmetic: a feature vector (the channel axis) is a `List ℚ`
and a spatial feature grid, flattened over batch/height/width exactly as
`VectorQuantizer.__call__` flattens it with
`jnp.reshape(x, (-1, x.shape[-1]))`, is a `List (List ℚ)` of per-position
vectors.  External capabilities (normalization, convolution, activation,
the softmax entropy estimator) are abstract function parameters, as the
spec's §6 "external interfaces" prescribes.
-/

namespace MaskGit

/-- A feature vector: the channel axis of a tensor, one spatial position. -/
abbrev Vec := List ℚ

/-- A flattened feature grid: one vector per (batch, h, w) position. -/
abbrev Grid := List Vec

/-- Elementwise vector sum (`+` on tensors of equal shape). -/
def vecAdd (a b : Vec) : Vec := List.zipWith (· + ·) a b

/-- Elementwise vector difference (`-` on tensors of equal shape). -/
def vecSub (a b : Vec) : Vec := List.zipWith (· - ·) a b

/-- Elementwise grid sum. -/
def gridAdd (a b : Grid) : Grid := List.zipWith vecAdd a b

/-- Elementwise grid difference. -/
def gridSub (a b : Grid) : Grid := List.zipWith vecSub a b

/-- Elementwise negation of a grid (`-distances` in the quantizer). -/
def gridNeg (g : Grid) : Grid := g.map (fun v => v.map (fun q => -q))

/-- Value semantics of `jax.lax.stop_gradient`: the identity on the forward
value (it only severs the backward pass, which a value-level embedding does
not model). -/
def stop_gradient (g : Grid) : Grid := g

/-- Modelled from the spec: `losses.squared_euclidean_distance` (the
`losses` module is imported by `networks.py` but absent from `src/`); the
spec calls it the "pairwise squared-distance function" capability, i.e.
the squared Euclidean distance of two vectors. -/
def sqDistVec (a b : Vec) : ℚ := (List.zipWith (fun u v => (u - v) ^ 2) a b).sum

/-- `jnp.mean(t ** 2)`: mean of the squares of all entries of a grid. -/
def meanSq (g : Grid) : ℚ := ((g.flatten.map (fun q => q ^ 2)).sum) / (g.flatten.length : ℚ)

/-- Accumulator loop behind `jnp.argmin`: `i` is the index of the next
element of the original row, `b` the best (first-minimal) index seen so
far and `bv` its value; a strictly smaller value replaces the best, so
ties keep the earliest index. -/
def argminAux : List ℚ → Nat → Nat → ℚ → Nat
  | [], _, b, _ => b
  | v :: vs, i, b, bv =>
      if v < bv then argminAux vs (i + 1) i v else argminAux vs (i + 1) b bv

/-- `jnp.argmin` along the last axis, for one row: index of the first
occurrence of the minimum (`0` on an empty row, which never arises since
the codebook is non-empty). -/
def argminList : List ℚ → Nat
  | [] => 0
  | v :: vs => argminAux vs 1 0 v

/-- `jax.nn.one_hot i n`: length-`n` vector with a `1` at position `i`
and `0` elsewhere (all zeros when `i ≥ n`). -/
def oneHot : Nat → Nat → Vec
  | _, 0 => []
  | 0, n + 1 => 1 :: List.replicate n 0
  | j + 1, n + 1 => 0 :: oneHot j n

/-- Channel width of the codebook: length of its rows (`codebook.shape[1]`,
always `embedding_dim`). -/
def cbDim (cb : Grid) : Nat := (cb.headD []).length

/-- One entry of a vector-matrix product: `Σ_k z_k · cb[k][j]`. -/
def dotRow (z : Vec) (cb : Grid) (j : Nat) : ℚ :=
  (List.zipWith (fun a c => a * c.getD j 0) z cb).sum

/-- `jnp.dot z codebook` for a single row `z` of length `codebook_size`
against a `codebook_size × d` matrix. -/
def matVec (z : Vec) (cb : Grid) (d : Nat) : Vec :=
  (List.range d).map (fun j => dotRow z cb j)

section ArgminSpec

theorem getD_mem_of_lt {α : Type} (d : α) : ∀ (l : List α) (k : Nat), k < l.length → l.getD k d ∈ l := by
  intro l
  induction l with
  | nil => intro k hk; simp at hk
  | cons a l ih =>
    intro k hk
    match k with
    | 0 => exact List.mem_cons_self _ _
    | k + 1 => exact List.mem_cons_of_mem _ (ih k (by simpa using hk))

theorem argminAux_cases (vs : List ℚ) :
    ∀ (i b : Nat) (bv : ℚ),
      (argminAux vs i b bv = b ∧ ∀ v ∈ vs, bv ≤ v) ∨
      (∃ j, j < vs.length ∧ argminAux vs i b bv = i + j ∧
        vs.getD j 0 < bv ∧ (∀ k, k < vs.length → vs.getD j 0 ≤ vs.getD k 0) ∧
        (∀ k, k < j → vs.getD j 0 < vs.getD k 0)) := by
  induction vs with
  | nil => intro i b bv; exact Or.inl ⟨rfl, by simp⟩
  | cons v vs ih =>
    intro i b bv
    by_cases hv : v < bv
    · rcases ih (i + 1) i v with ⟨heq, hall⟩ | ⟨j, hj, heq, hlt, hmin, hfirst⟩
      · refine Or.inr ⟨0, by simp, ?_, hv, ?_, ?_⟩
        · show argminAux (v :: vs) i b bv = i + 0
          simp only [argminAux, if_pos hv, heq]
          omega
        · intro k hk
          match k with
          | 0 => exact le_refl _
          | k + 1 =>
            show v ≤ vs.getD k 0
            exact hall _ (getD_mem_of_lt 0 vs k (by simpa using hk))
        · intro k hk; omega
      · refine Or.inr ⟨j + 1, by simpa using hj, ?_, lt_trans hlt hv, ?_, ?_⟩
        · show argminAux (v :: vs) i b bv = i + (j + 1)
          simp only [argminAux, if_pos hv, heq]
          omega
        · intro k hk
          match k with
          | 0 => exact le_of_lt hlt
          | k + 1 => exact hmin k (by simpa using hk)
        · intro k hk
          match k with
          | 0 => exact hlt
          | k + 1 => exact hfirst k (by omega)
    · rcases ih (i + 1) b bv with ⟨heq, hall⟩ | ⟨j, hj, heq, hlt, hmin, hfirst⟩
      · refine Or.inl ⟨?_, ?_⟩
        · show argminAux (v :: vs) i b bv = b
          simp only [argminAux, if_neg hv, heq]
        · intro w hw
          rcases List.mem_cons.mp hw with hw | hw
          · exact hw ▸ le_of_not_lt hv
          · exact hall w hw
      · refine Or.inr ⟨j + 1, by simpa using hj, ?_, hlt, ?_, ?_⟩
        · show argminAux (v :: vs) i b bv = i + (j + 1)
          simp only [argminAux, if_neg hv, heq]
          omega
        · intro k hk
          match k with
          | 0 => exact le_of_lt (lt_of_lt_of_le hlt (le_of_not_lt hv))
          | k + 1 => exact hmin k (by simpa using hk)
        · intro k hk
          match k with
          | 0 => exact lt_of_lt_of_le hlt (le_of_not_lt hv)
          | k + 1 => exact hfirst k (by omega)

/-- `argminList` returns the first index of the minimum: an in-range index
whose value is a lower bound of the row, strictly below every earlier entry. -/
theorem argminList_spec (l : List ℚ) (hl : l ≠ []) :
    argminList l < l.length ∧
    (∀ k, k < l.length → l.getD (argminList l) 0 ≤ l.getD k 0) ∧
    (∀ k, k < argminList l → l.getD (argminList l) 0 < l.getD k 0) := by
  match l, hl with
  | v :: vs, _ =>
    have hdef : argminList (v :: vs) = argminAux vs 1 0 v := rfl
    rcases argminAux_cases vs 1 0 v with ⟨heq, hall⟩ | ⟨j, hj, heq, hlt, hmin, hfirst⟩
    · rw [hdef, heq]
      refine ⟨by simp, ?_, ?_⟩
      · intro k hk
        match k with
        | 0 => exact le_refl _
        | k + 1 =>
          show v ≤ vs.getD k 0
          exact hall _ (getD_mem_of_lt 0 vs k (by simpa using hk))
      · intro k hk; omega
    · rw [hdef, heq, Nat.add_comm 1 j]
      refine ⟨by simpa using hj, ?_, ?_⟩
      · intro k hk
        show vs.getD j 0 ≤ _
        match k with
        | 0 => exact le_of_lt hlt
        | k + 1 => exact hmin k (by simpa using hk)
      · intro k hk
        show vs.getD j 0 < _
        match k with
        | 0 => exact hlt
        | k + 1 => exact hfirst k (by omega)

end ArgminSpec

section OneHotSpec

theorem oneHot_length : ∀ (i n : Nat), (oneHot i n).length = n := by
  intro i n
  induction n generalizing i with
  | zero => cases i <;> rfl
  | succ n ih =>
    match i with
    | 0 => simp [oneHot]
    | j + 1 => simpa [oneHot] using ih j

theorem oneHot_sum : ∀ (i n : Nat), (oneHot i n).sum = if i < n then 1 else 0 := by
  intro i n
  induction n generalizing i with
  | zero => cases i <;> simp [oneHot]
  | succ n ih =>
    match i with
    | 0 => simp [oneHot, List.sum_replicate]
    | j + 1 =>
      have := ih j
      simp only [oneHot, List.sum_cons, this]
      by_cases hj : j < n <;> simp [hj, Nat.succ_lt_succ_iff]

theorem zip_replicate_zero_sum (j : Nat) :
    ∀ (k : Nat) (l : Grid),
      (List.zipWith (fun a c => a * c.getD j 0) (List.replicate k (0 : ℚ)) l).sum = 0 := by
  intro k
  induction k with
  | zero => intro l; simp
  | succ k ih =>
    intro l
    match l with
    | [] => simp
    | c :: l => simpa [List.replicate_succ] using ih l

theorem dotRow_oneHot (cb : Grid) :
    ∀ (i j : Nat),
      dotRow (oneHot i cb.length) cb j =
        if i < cb.length then (cb.getD i []).getD j 0 else 0 := by
  induction cb with
  | nil => intro i j; simp [dotRow, oneHot]
  | cons c cbs ih =>
    intro i j
    match i with
    | 0 =>
      show (List.zipWith (fun a c => a * c.getD j 0) (1 :: List.replicate cbs.length 0)
        (c :: cbs)).sum = _
      rw [List.zipWith_cons_cons, List.sum_cons, zip_replicate_zero_sum j cbs.length cbs]
      simp
    | i + 1 =>
      show (List.zipWith (fun a c => a * c.getD j 0) (0 :: oneHot i cbs.length)
        (c :: cbs)).sum = _
      rw [List.zipWith_cons_cons, List.sum_cons, zero_mul, zero_add]
      have hih := ih i j
      unfold dotRow at hih
      rw [hih]
      simp [Nat.succ_lt_succ_iff]

theorem range_map_getD : ∀ (v : Vec), (List.range v.length).map (fun j => v.getD j 0) = v := by
  intro v
  induction v with
  | nil => simp
  | cons a v ih =>
    show (List.range (v.length + 1)).map _ = _
    rw [List.range_succ_eq_map, List.map_cons, List.map_map]
    exact congrArg (a :: ·) ih

/-- The one-hot / matrix-product lookup: multiplying `oneHot i` by the
codebook recovers codebook row `i`, provided that row has the codebook's
channel width `d`. -/
theorem matVec_oneHot (cb : Grid) (i d : Nat) (hi : i < cb.length)
    (hd : (cb.getD i []).length = d) :
    matVec (oneHot i cb.length) cb d = cb.getD i [] := by
  unfold matVec
  have h1 : ∀ j : Nat, dotRow (oneHot i cb.length) cb j = (cb.getD i []).getD j 0 := by
    intro j; rw [dotRow_oneHot cb i j, if_pos hi]
  calc (List.range d).map (fun j => dotRow (oneHot i cb.length) cb j)
      = (List.range d).map (fun j => (cb.getD i []).getD j 0) := by
        exact List.map_congr_left (fun j _ => h1 j)
    _ = cb.getD i [] := by rw [← hd]; exact range_map_getD _

end OneHotSpec

/-! ## The quantizer forward pipeline (`VectorQuantizer.__call__`)

The codebook parameter `self.param("codebook", ..., (codebook_size, x.shape[-1]))`
is the quantizer's state; it is passed explicitly.  By construction its
length is the literal `codebook_size = 1024` of `__call__`, so the
embedding uses `cb.length` where the code writes `codebook_size`.
`losses.entropy_loss` (softmax entropy estimator over real exponentials,
an external capability per spec §6, and the `losses` module is not under
`src/`) is an abstract function parameter `ef`. -/

/-- `distances`: squared Euclidean distance of every flattened feature
vector to every codebook entry, one row of `codebook_size` distances per
spatial position. -/
def vqDistances (cb x : Grid) : Grid := x.map (fun v => cb.map (fun c => sqDistVec v c))

/-- `encoding_indices = jnp.argmin(distances, axis=-1)`. -/
def vqIndices (cb x : Grid) : List Nat := (vqDistances cb x).map argminList

/-- `encodings = jax.nn.one_hot(encoding_indices, codebook_size)`. -/
def vqEncodings (cb x : Grid) : Grid := (vqIndices cb x).map (fun i => oneHot i cb.length)

/-- `VectorQuantizer.quantize`: `jnp.dot(z, codebook)` for a grid of rows. -/
def quantize (cb z : Grid) : Grid := z.map (fun row => matVec row cb (cbDim cb))

/-- `quantized = self.quantize(encodings)`: the nearest-codebook quantized
grid before the straight-through rewrite. -/
def vqQuantized (cb x : Grid) : Grid := quantize cb (vqEncodings cb x)

/-- `commitment_cost = 0.25`. -/
def commitment_cost : ℚ := 1 / 4

/-- `entropy_loss_ratio = 0.1`. -/
def entropy_loss_ratio : ℚ := 1 / 10

/-- `e_latent_loss = jnp.mean((stop_gradient(quantized) - x) ** 2) * commitment_cost`. -/
def e_latent_loss (cb x : Grid) : ℚ :=
  meanSq (gridSub (stop_gradient (vqQuantized cb x)) x) * commitment_cost

/-- `q_latent_loss = jnp.mean((quantized - stop_gradient(x)) ** 2)`. -/
def q_latent_loss (cb x : Grid) : ℚ :=
  meanSq (gridSub (vqQuantized cb x) (stop_gradient x))

/-- `entropy_loss = losses.entropy_loss(-distances, ...) * entropy_loss_ratio`
when the ratio is non-zero, else the initial `0.0`; `ef` is the abstract
softmax entropy estimator at temperature `0.01`. -/
def entropy_loss (ef : Grid → ℚ) (cb x : Grid) : ℚ :=
  if entropy_loss_ratio ≠ 0 then ef (gridNeg (vqDistances cb x)) * entropy_loss_ratio else 0

/-- `loss = e_latent_loss + q_latent_loss + entropy_loss`. -/
def quantizer_loss (ef : Grid → ℚ) (cb x : Grid) : ℚ :=
  e_latent_loss cb x + q_latent_loss cb x + entropy_loss ef cb x

/-- A value stored in `result_dict`: a scalar loss, a tensor grid, or the
integer index tensor. -/
inductive RVal where
  | scalar : ℚ → RVal
  | grid : Grid → RVal
  | idxs : List Nat → RVal
deriving DecidableEq

/-- `VectorQuantizer.__call__`: returns the pair
`(quantized, result_dict)`.  In training mode the returned tensor is the
straight-through value `x + stop_gradient(quantized - x)` and the dict
holds the four scalar losses before the common entries; Python dicts
preserve insertion order, so the record is a `List (String × RVal)` in
insertion order. -/
def vqForward (train : Bool) (cb : Grid) (ef : Grid → ℚ) (x : Grid) :
    Grid × List (String × RVal) :=
  let quantized := vqQuantized cb x
  if train then
    (gridAdd x (stop_gradient (gridSub quantized x)),
      [("quantizer_loss", RVal.scalar (quantizer_loss ef cb x)),
       ("e_latent_loss", RVal.scalar (e_latent_loss cb x)),
       ("q_latent_loss", RVal.scalar (q_latent_loss cb x)),
       ("entropy_loss", RVal.scalar (entropy_loss ef cb x)),
       ("encodings", RVal.grid (vqEncodings cb x)),
       ("encoding_indices", RVal.idxs (vqIndices cb x)),
       ("raw", RVal.grid x)])
  else
    (quantized,
      [("encodings", RVal.grid (vqEncodings cb x)),
       ("encoding_indices", RVal.idxs (vqIndices cb x)),
       ("raw", RVal.grid x)])

section ListShapeLemmas

theorem map_getD {α β : Type} (f : α → β) :
    ∀ (x : List α) (p : Nat), p < x.length → ∀ (d : β) (d0 : α),
      (x.map f).getD p d = f (x.getD p d0) := by
  intro x
  induction x with
  | nil => intro p hp; simp at hp
  | cons a x ih =>
    intro p hp d d0
    match p with
    | 0 => rfl
    | p + 1 => exact ih p (by simpa using hp) d d0

theorem matVec_length (z : Vec) (cb : Grid) (d : Nat) : (matVec z cb d).length = d := by
  simp [matVec]

theorem vecAdd_vecSub : ∀ (a b : Vec), a.length = b.length → vecAdd a (vecSub b a) = b := by
  intro a
  induction a with
  | nil =>
    intro b hb
    match b, hb with
    | [], _ => rfl
  | cons u a ih =>
    intro b hb
    match b, hb with
    | w :: b, hb =>
      show (u + (w - u)) :: vecAdd a (vecSub b a) = w :: b
      rw [add_sub_cancel, ih b (by simpa using hb)]

theorem gridAdd_gridSub : ∀ (x q : Grid), x.length = q.length →
    (∀ p, p < x.length → (x.getD p []).length = (q.getD p []).length) →
    gridAdd x (gridSub q x) = q := by
  intro x
  induction x with
  | nil =>
    intro q hq _
    match q, hq with
    | [], _ => rfl
  | cons v x ih =>
    intro q hq hrow
    match q, hq with
    | w :: q, hq =>
      show vecAdd v (vecSub w v) :: gridAdd x (gridSub q x) = w :: q
      rw [vecAdd_vecSub v w (hrow 0 (by simp)),
        ih q (by simpa using hq) (fun p hp => hrow (p + 1) (by simpa using hp))]

theorem vqDistances_length (cb x : Grid) : (vqDistances cb x).length = x.length := by
  simp [vqDistances]

theorem vqIndices_length (cb x : Grid) : (vqIndices cb x).length = x.length := by
  simp [vqIndices, vqDistances]

theorem vqEncodings_length (cb x : Grid) : (vqEncodings cb x).length = x.length := by
  simp [vqEncodings, vqIndices, vqDistances]

theorem vqQuantized_length (cb x : Grid) : (vqQuantized cb x).length = x.length := by
  simp [vqQuantized, quantize, vqEncodings, vqIndices, vqDistances]

theorem vqQuantized_getD (cb x : Grid) (p : Nat) (hp : p < x.length) :
    (vqQuantized cb x).getD p [] =
      matVec (oneHot ((vqIndices cb x).getD p 0) cb.length) cb (cbDim cb) := by
  unfold vqQuantized quantize
  rw [map_getD _ (vqEncodings cb x) p (by rw [vqEncodings_length]; exact hp) [] []]
  unfold vqEncodings
  rw [map_getD _ (vqIndices cb x) p (by rw [vqIndices_length]; exact hp) [] 0]

theorem vqQuantized_row_length (cb x : Grid) (p : Nat) (hp : p < x.length) :
    ((vqQuantized cb x).getD p []).length = cbDim cb := by
  rw [vqQuantized_getD cb x p hp, matVec_length]

end ListShapeLemmas

/-- C1: In training mode, the tensor returned by `VectorQuantizer.__call__`,
computed as `x + stop_gradient(quantized - x)`, is numerically equal,
exactly, to the nearest-codebook quantized value
`jnp.dot(one_hot(argmin distances), codebook)`: the gradient-passthrough
rewrite does not change the forward value.  (Hypothesis: the feature
vectors have the codebook's channel width, which holds by construction of
the codebook parameter shape `(codebook_size, x.shape[-1])`.) -/
theorem straight_through_value (cb x : Grid) (ef : Grid → ℚ)
    (hx : ∀ v ∈ x, v.length = cbDim cb) :
    (vqForward true cb ef x).1 = vqQuantized cb x := by
  show gridAdd x (stop_gradient (gridSub (vqQuantized cb x) x)) = vqQuantized cb x
  unfold stop_gradient
  apply gridAdd_gridSub
  · rw [vqQuantized_length]
  · intro p hp
    rw [vqQuantized_row_length cb x p hp]
    exact hx _ (getD_mem_of_lt [] x p hp)

theorem straight_through_value_witness :
    (∀ v ∈ ([[0]] : Grid), v.length = cbDim [[(2 : ℚ)], [3]]) ∧
    (vqForward true [[(2 : ℚ)], [3]] (fun _ => 0) [[0]]).1 =
      vqQuantized [[(2 : ℚ)], [3]] [[0]] :=
  ⟨by decide, straight_through_value [[(2 : ℚ)], [3]] [[0]] (fun _ => 0) (by decide)⟩

theorem vqDistances_getD (cb x : Grid) (p : Nat) (hp : p < x.length) :
    (vqDistances cb x).getD p [] = cb.map (fun c => sqDistVec (x.getD p []) c) := by
  unfold vqDistances
  rw [map_getD _ x p hp [] []]

theorem vqIndices_getD (cb x : Grid) (p : Nat) (hp : p < x.length) :
    (vqIndices cb x).getD p 0 = argminList ((vqDistances cb x).getD p []) := by
  unfold vqIndices
  rw [map_getD _ (vqDistances cb x) p (by rw [vqDistances_length]; exact hp) 0 []]

theorem distRow_getD (cb : Grid) (xp : Vec) (k : Nat) (hk : k < cb.length) :
    (cb.map (fun c => sqDistVec xp c)).getD k 0 = sqDistVec xp (cb.getD k []) := by
  rw [map_getD _ cb k hk 0 []]

/-- C2: for every spatial position `p` of the input grid, the quantizer's
`encoding_indices` entry at `p` is an in-range index of the codebook whose
squared Euclidean distance to the feature vector at `p` is minimal, ties
broken by the lowest index (every strictly earlier index has strictly
larger distance), and the quantized vector at `p` is the matrix product of
the one-hot encoding of that index with the codebook. -/
theorem vq_nearest_assignment (cb x : Grid) (hcb : cb ≠ []) (p : Nat) (hp : p < x.length) :
    (vqIndices cb x).getD p 0 < cb.length ∧
    (∀ k, k < cb.length →
      sqDistVec (x.getD p []) (cb.getD ((vqIndices cb x).getD p 0) []) ≤
        sqDistVec (x.getD p []) (cb.getD k [])) ∧
    (∀ k, k < (vqIndices cb x).getD p 0 →
      sqDistVec (x.getD p []) (cb.getD ((vqIndices cb x).getD p 0) []) <
        sqDistVec (x.getD p []) (cb.getD k [])) ∧
    (vqQuantized cb x).getD p [] =
      matVec (oneHot ((vqIndices cb x).getD p 0) cb.length) cb (cbDim cb) := by
  have hrow : (vqDistances cb x).getD p [] = cb.map (fun c => sqDistVec (x.getD p []) c) :=
    vqDistances_getD cb x p hp
  have hlen : ((vqDistances cb x).getD p []).length = cb.length := by
    rw [hrow, List.length_map]
  have hne : (vqDistances cb x).getD p [] ≠ [] := by
    intro h
    apply hcb
    rw [h] at hlen
    exact List.length_eq_zero.mp hlen.symm
  have hidx : (vqIndices cb x).getD p 0 = argminList ((vqDistances cb x).getD p []) :=
    vqIndices_getD cb x p hp
  obtain ⟨h1, h2, h3⟩ := argminList_spec ((vqDistances cb x).getD p []) hne
  have hgd : ∀ k, k < cb.length →
      ((vqDistances cb x).getD p []).getD k 0 = sqDistVec (x.getD p []) (cb.getD k []) := by
    intro k hk
    rw [hrow, distRow_getD cb (x.getD p []) k hk]
  have hi : (vqIndices cb x).getD p 0 < cb.length := by rw [hidx]; exact hlen ▸ h1
  refine ⟨hi, ?_, ?_, vqQuantized_getD cb x p hp⟩
  · intro k hk
    rw [← hgd _ hi, ← hgd _ hk, hidx]
    exact h2 k (hlen.symm ▸ hk)
  · intro k hk
    rw [← hgd _ hi, ← hgd _ (lt_trans hk hi), hidx]
    exact h3 k (hidx ▸ hk)

theorem vq_nearest_assignment_witness :
    ([[(0 : ℚ)], [1]] : Grid) ≠ [] ∧ 0 < ([[(1 : ℚ)], [5]] : Grid).length ∧
    ((vqIndices [[(0 : ℚ)], [1]] [[(1 : ℚ)], [5]]).getD 0 0 < ([[(0 : ℚ)], [1]] : Grid).length ∧
    (∀ k, k < ([[(0 : ℚ)], [1]] : Grid).length →
      sqDistVec (([[(1 : ℚ)], [5]] : Grid).getD 0 [])
          (([[(0 : ℚ)], [1]] : Grid).getD ((vqIndices [[(0 : ℚ)], [1]] [[(1 : ℚ)], [5]]).getD 0 0) []) ≤
        sqDistVec (([[(1 : ℚ)], [5]] : Grid).getD 0 []) (([[(0 : ℚ)], [1]] : Grid).getD k [])) ∧
    (∀ k, k < (vqIndices [[(0 : ℚ)], [1]] [[(1 : ℚ)], [5]]).getD 0 0 →
      sqDistVec (([[(1 : ℚ)], [5]] : Grid).getD 0 [])
          (([[(0 : ℚ)], [1]] : Grid).getD ((vqIndices [[(0 : ℚ)], [1]] [[(1 : ℚ)], [5]]).getD 0 0) []) <
        sqDistVec (([[(1 : ℚ)], [5]] : Grid).getD 0 []) (([[(0 : ℚ)], [1]] : Grid).getD k [])) ∧
    (vqQuantized [[(0 : ℚ)], [1]] [[(1 : ℚ)], [5]]).getD 0 [] =
      matVec (oneHot ((vqIndices [[(0 : ℚ)], [1]] [[(1 : ℚ)], [5]]).getD 0 0)
        ([[(0 : ℚ)], [1]] : Grid).length) [[(0 : ℚ)], [1]] (cbDim [[(0 : ℚ)], [1]])) :=
  ⟨by decide, by decide,
    vq_nearest_assignment [[(0 : ℚ)], [1]] [[(1 : ℚ)], [5]] (by decide) 0 (by decide)⟩

/-- Every entry of `encoding_indices` is a valid codebook index: `argmin`
over a distance row of the codebook's length. -/
theorem vqIndices_lt (cb x : Grid) (hcb : cb ≠ []) : ∀ i ∈ vqIndices cb x, i < cb.length := by
  intro i hi
  unfold vqIndices at hi
  rcases List.mem_map.mp hi with ⟨row, hrowmem, hrow⟩
  unfold vqDistances at hrowmem
  rcases List.mem_map.mp hrowmem with ⟨v, _, hveq⟩
  have hlen : row.length = cb.length := by rw [← hveq, List.length_map]
  have hne : row ≠ [] := by
    intro h
    apply hcb
    rw [h] at hlen
    exact List.length_eq_zero.mp hlen.symm
  rw [← hrow, ← hlen]
  exact (argminList_spec row hne).1

/-- C7: every value of the `encoding_indices` tensor produced by the
`VectorQuantizer` forward pass lies in `[0, codebook_size)` with
`codebook_size = 1024` (the literal in `__call__`, i.e. the codebook
parameter's row count), for every input feature grid. -/
theorem vq_index_range (train : Bool) (cb : Grid) (ef : Grid → ℚ) (x : Grid)
    (hcb : cb.length = 1024) :
    ("encoding_indices", RVal.idxs (vqIndices cb x)) ∈ (vqForward train cb ef x).2 ∧
    ∀ i ∈ vqIndices cb x, i < 1024 := by
  constructor
  · cases train <;> simp [vqForward]
  · intro i hi
    rw [← hcb]
    exact vqIndices_lt cb x (by intro h; rw [h] at hcb; exact absurd hcb (by decide)) i hi

theorem vq_index_range_witness :
    (List.replicate 1024 ([(0 : ℚ)] : Vec)).length = 1024 ∧
    (("encoding_indices", RVal.idxs (vqIndices (List.replicate 1024 [(0 : ℚ)]) [[1]])) ∈
      (vqForward false (List.replicate 1024 [(0 : ℚ)]) (fun _ => 0) [[1]]).2 ∧
     ∀ i ∈ vqIndices (List.replicate 1024 [(0 : ℚ)]) [[1]], i < 1024) :=
  ⟨List.length_replicate 1024 _,
    vq_index_range false (List.replicate 1024 [(0 : ℚ)]) (fun _ => 0) [[1]]
      (List.length_replicate 1024 _)⟩

/-- C8: for every spatial position of every input feature grid, the
one-hot `encodings` row produced by the `VectorQuantizer` sums to exactly
`1` along the code axis.  (The codebook is non-empty; it has 1024 rows.) -/
theorem vq_onehot_sum (cb x : Grid) (hcb : cb ≠ []) :
    ∀ row ∈ vqEncodings cb x, row.sum = 1 := by
  intro row hrow
  unfold vqEncodings at hrow
  rcases List.mem_map.mp hrow with ⟨i, hi, hieq⟩
  have hlt : i < cb.length := vqIndices_lt cb x hcb i hi
  rw [← hieq, oneHot_sum, if_pos hlt]

theorem vq_onehot_sum_witness :
    ([[(0 : ℚ)], [1]] : Grid) ≠ [] ∧
    ∀ row ∈ vqEncodings [[(0 : ℚ)], [1]] [[2]], row.sum = 1 :=
  ⟨by decide, vq_onehot_sum [[(0 : ℚ)], [1]] [[2]] (by decide)⟩

/-- C3 counterexample: at codebook `[[5]]`, input `[[0]]`, training mode,
the quantized output (the first component of the returned pair, equal to
the nearest-codebook value `[[5]]`) is not the value of any entry of the
result record: the record only holds the four losses, the encodings, the
indices and the raw features, so the claim that the result record includes
the quantized output is false. -/
theorem vq_result_record_counterexample :
    (vqForward true [[(5 : ℚ)]] (fun _ => 0) [[0]]).1 = vqQuantized [[(5 : ℚ)]] [[0]] ∧
    ∀ kv ∈ (vqForward true [[(5 : ℚ)]] (fun _ => 0) [[0]]).2,
      kv.2 ≠ RVal.grid (vqQuantized [[(5 : ℚ)]] [[0]]) := by
  constructor
  · show gridAdd [[(0 : ℚ)]] (stop_gradient (gridSub (vqQuantized [[(5 : ℚ)]] [[0]]) [[0]])) = _
    norm_num [vqQuantized, quantize, vqEncodings, vqIndices, vqDistances, sqDistVec,
      argminList, argminAux, oneHot, matVec, dotRow, cbDim, List.range_succ,
      gridAdd, gridSub, vecAdd, vecSub, stop_gradient]
  · norm_num [vqForward, vqQuantized, quantize, vqEncodings, vqIndices, vqDistances, sqDistVec,
      argminList, argminAux, oneHot, matVec, dotRow, cbDim, List.range_succ]
    exact ⟨fun h => RVal.noConfusion h, fun h => RVal.noConfusion h, fun h => RVal.noConfusion h,
      fun h => RVal.noConfusion h, fun h => RVal.noConfusion h⟩

/-- C3 (amended): a `VectorQuantizer` forward pass returns the quantized
output alongside a result record; the record maps names to the one-hot
encodings, the encoding indices, and the raw pre-quantization features,
and contains the loss components (commitment loss, codebook loss, entropy
regularization loss, total quantizer loss) if and only if the quantizer is
in training mode. -/
theorem vq_result_record (train : Bool) (cb : Grid) (ef : Grid → ℚ) (x : Grid) :
    (vqForward train cb ef x).2.map Prod.fst =
      (if train then ["quantizer_loss", "e_latent_loss", "q_latent_loss", "entropy_loss"]
       else []) ++ ["encodings", "encoding_indices", "raw"] ∧
    ("encodings", RVal.grid (vqEncodings cb x)) ∈ (vqForward train cb ef x).2 ∧
    ("encoding_indices", RVal.idxs (vqIndices cb x)) ∈ (vqForward train cb ef x).2 ∧
    ("raw", RVal.grid x) ∈ (vqForward train cb ef x).2 ∧
    ((("quantizer_loss", RVal.scalar (quantizer_loss ef cb x)) ∈ (vqForward train cb ef x).2 ∧
      ("e_latent_loss", RVal.scalar (e_latent_loss cb x)) ∈ (vqForward train cb ef x).2 ∧
      ("q_latent_loss", RVal.scalar (q_latent_loss cb x)) ∈ (vqForward train cb ef x).2 ∧
      ("entropy_loss", RVal.scalar (entropy_loss ef cb x)) ∈ (vqForward train cb ef x).2) ↔
      train = true) := by
  cases train <;> simp [vqForward]

theorem meanSq_nonneg (g : Grid) : 0 ≤ meanSq g := by
  unfold meanSq
  apply div_nonneg
  · apply List.sum_nonneg
    intro a ha
    rcases List.mem_map.mp ha with ⟨q, _, hq⟩
    rw [← hq]
    exact sq_nonneg q
  · exact_mod_cast Nat.zero_le _

/-- C6: in training mode the commitment loss (`e_latent_loss`, the mean
squared error between the gradient-detached quantized grid and the raw
features, scaled by `0.25`) and the codebook loss (`q_latent_loss`) are
non-negative for every input, and the total quantizer loss placed in the
result record is exactly their sum plus the entropy regularization loss. -/
theorem vq_loss_properties (cb x : Grid) (ef : Grid → ℚ) :
    0 ≤ e_latent_loss cb x ∧ 0 ≤ q_latent_loss cb x ∧
    quantizer_loss ef cb x = e_latent_loss cb x + q_latent_loss cb x + entropy_loss ef cb x ∧
    ("quantizer_loss", RVal.scalar (quantizer_loss ef cb x)) ∈ (vqForward true cb ef x).2 := by
  refine ⟨?_, ?_, rfl, ?_⟩
  · exact mul_nonneg (meanSq_nonneg _) (by norm_num [commitment_cost])
  · exact meanSq_nonneg _
  · simp [vqForward]

/-! ## Residual block (`ResBlock.__call__`) -/

/-- `x.shape[-1]`: the channel count of a feature grid (rows are uniform). -/
def channels (x : Grid) : Nat := (x.headD []).length

/-- The transformed branch of `ResBlock.__call__`:
normalize → activate → 3×3 convolve (no bias) → normalize → activate →
3×3 convolve (no bias).  `norm_fn` is the normalization-layer constructor
(a fresh instance per call), `conv_fn` the convolution constructor taking
output filters, kernel size and a bias flag, `activation_fn` the
elementwise nonlinearity — the external capabilities of spec §6. -/
def resBranch (filters : Nat) (norm_fn : Unit → Grid → Grid)
    (conv_fn : Nat → Nat × Nat → Bool → Grid → Grid)
    (activation_fn : Grid → Grid) (x : Grid) : Grid :=
  conv_fn filters (3, 3) false (activation_fn (norm_fn ()
    (conv_fn filters (3, 3) false (activation_fn (norm_fn () x)))))

/-- `ResBlock.__call__`: the branch output plus the shortcut; the shortcut
is the unchanged input when `input_dim == filters`, otherwise a projection
convolution (3×3 if `use_conv_shortcut` else 1×1) applied to the branch
output `x` after the second convolution — not to the original input. -/
def resBlock (filters : Nat) (norm_fn : Unit → Grid → Grid)
    (conv_fn : Nat → Nat × Nat → Bool → Grid → Grid)
    (activation_fn : Grid → Grid) (use_conv_shortcut : Bool) (x : Grid) : Grid :=
  let input_dim := channels x
  let residual := x
  let x2 := resBranch filters norm_fn conv_fn activation_fn x
  let residual2 := if input_dim ≠ filters then
      (if use_conv_shortcut then conv_fn filters (3, 3) false x2
       else conv_fn filters (1, 1) false x2)
    else residual
  gridAdd x2 residual2

/-- C4: when `input_dim = filters` the residual block's output is the
transformed branch plus the original, unchanged input (no projection);
when `input_dim ≠ filters` the shortcut is a projection convolution (3×3
if `use_conv_shortcut` is set, else 1×1) applied to the
post-second-convolution branch output rather than to the original input,
and the block output is the branch output plus that projection. -/
theorem resBlock_shortcut (filters : Nat) (norm_fn : Unit → Grid → Grid)
    (conv_fn : Nat → Nat × Nat → Bool → Grid → Grid)
    (activation_fn : Grid → Grid) (use_conv_shortcut : Bool) (x : Grid) :
    (channels x = filters →
      resBlock filters norm_fn conv_fn activation_fn use_conv_shortcut x =
        gridAdd (resBranch filters norm_fn conv_fn activation_fn x) x) ∧
    (channels x ≠ filters →
      resBlock filters norm_fn conv_fn activation_fn use_conv_shortcut x =
        gridAdd (resBranch filters norm_fn conv_fn activation_fn x)
          (if use_conv_shortcut then
            conv_fn filters (3, 3) false (resBranch filters norm_fn conv_fn activation_fn x)
           else
            conv_fn filters (1, 1) false (resBranch filters norm_fn conv_fn activation_fn x))) := by
  constructor
  · intro h
    simp [resBlock, h]
  · intro h
    simp [resBlock, h]

theorem resBlock_shortcut_witness :
    (channels [[(1 : ℚ), 2]] = 2 ∧
      resBlock 2 (fun _ g => g) (fun _ _ _ g => g) (fun g => g) false [[(1 : ℚ), 2]] =
        gridAdd (resBranch 2 (fun _ g => g) (fun _ _ _ g => g) (fun g => g) [[(1 : ℚ), 2]])
          [[(1 : ℚ), 2]]) ∧
    (channels [[(1 : ℚ), 2]] ≠ 1 ∧
      resBlock 1 (fun _ g => g) (fun _ _ _ g => g) (fun g => g) false [[(1 : ℚ), 2]] =
        gridAdd (resBranch 1 (fun _ g => g) (fun _ _ _ g => g) (fun g => g) [[(1 : ℚ), 2]])
          (if false then
            (fun (_ : Nat) (_ : Nat × Nat) (_ : Bool) (g : Grid) => g) 1 (3, 3) false
              (resBranch 1 (fun _ g => g) (fun _ _ _ g => g) (fun g => g) [[(1 : ℚ), 2]])
           else
            (fun (_ : Nat) (_ : Nat × Nat) (_ : Bool) (g : Grid) => g) 1 (1, 1) false
              (resBranch 1 (fun _ g => g) (fun _ _ _ g => g) (fun g => g) [[(1 : ℚ), 2]]))) :=
  ⟨⟨by decide,
    (resBlock_shortcut 2 (fun _ g => g) (fun _ _ _ g => g) (fun g => g) false [[(1 : ℚ), 2]]).1
      (by decide)⟩,
   ⟨by decide,
    (resBlock_shortcut 1 (fun _ g => g) (fun _ _ _ g => g) (fun g => g) false [[(1 : ℚ), 2]]).2
      (by decide)⟩⟩

/-! ## Index decoding (`VectorQuantizer.decode_ids`, `VQVAE` index paths) -/

/-- Index normalization of `jnp.take(..., axis=0)` with JAX's default
out-of-bounds mode: a negative index is first wrapped Python-style
(`i + n`), and the result is then clamped into `[0, n-1]`. -/
def takeIdx (n : Nat) (i : Int) : Nat :=
  (max 0 (min (if i < 0 then i + (n : Int) else i) ((n : Int) - 1))).toNat

/-- `VectorQuantizer.decode_ids`: gather codebook rows by index along
axis 0 (`jnp.take(codebook, ids, axis=0)`), with the default wrap-then-clamp
index handling. -/
def decode_ids (cb : Grid) (ids : List Int) : Grid :=
  ids.map (fun i => cb.getD (takeIdx cb.length i) [])

/-- The `result_dict["encoding_indices"]` extraction used by
`VQVAE.encode_to_indices`. -/
def lookupIndices (d : List (String × RVal)) : List Nat :=
  match d.lookup "encoding_indices" with
  | some (RVal.idxs l) => l
  | _ => []

/-- `VQVAE.encode_to_indices` on a raw tensor: run the encoder tower
(abstract capability `encoder`), then the quantizer, and return
`result_dict["encoding_indices"]`. -/
def encode_to_indices (train : Bool) (cb : Grid) (ef : Grid → ℚ)
    (encoder : Grid → Grid) (img : Grid) : List Nat :=
  lookupIndices (vqForward train cb ef (encoder img)).2

/-- `VQVAE.decode_from_indices` on a raw index tensor: look up codebook
vectors with `decode_ids`, then decode (abstract decoder tower). -/
def decode_from_indices (decoder : Grid → Grid) (cb : Grid) (ids : List Int) : Grid :=
  decoder (decode_ids cb ids)

/-- The one-hot-matmul lookup path: `quantize(one_hot(ids))`. -/
def quantize_lookup (cb : Grid) (ids : List Nat) : Grid :=
  quantize cb (ids.map (fun i => oneHot i cb.length))

theorem encode_to_indices_eq (train : Bool) (cb : Grid) (ef : Grid → ℚ)
    (encoder : Grid → Grid) (img : Grid) :
    encode_to_indices train cb ef encoder img = vqIndices cb (encoder img) := by
  cases train <;> rfl

theorem decode_ids_row_eq_lookup (cb : Grid) (hd : ∀ c ∈ cb, c.length = cbDim cb)
    (i : Nat) (hi : i < cb.length) :
    cb.getD (takeIdx cb.length (Int.ofNat i)) [] = matVec (oneHot i cb.length) cb (cbDim cb) := by
  have hclamp : takeIdx cb.length (Int.ofNat i) = i := by
    unfold takeIdx
    simp only [Int.ofNat_eq_coe]
    rw [if_neg (by omega)]
    omega
  rw [hclamp]
  exact (matVec_oneHot cb i (cbDim cb) hi (hd _ (getD_mem_of_lt [] cb i hi))).symm

/-- C5: decoding via stored indices agrees with the one-hot-matmul
lookup: for every in-range index tensor, `decode_ids` (a gather of
codebook rows) returns the same vectors as `quantize(one_hot(ids))`, and
therefore `decode_from_indices(encode_to_indices(x))` equals decoding the
quantized grid looked up from those same indices, for any encoder and
decoder towers. -/
theorem decode_ids_agrees (cb : Grid) (hcb : cb ≠ [])
    (hd : ∀ c ∈ cb, c.length = cbDim cb) :
    (∀ ids : List Nat, (∀ i ∈ ids, i < cb.length) →
      decode_ids cb (ids.map Int.ofNat) = quantize_lookup cb ids) ∧
    (∀ (train : Bool) (ef : Grid → ℚ) (encoder decoder : Grid → Grid) (img : Grid),
      decode_from_indices decoder cb
          ((encode_to_indices train cb ef encoder img).map Int.ofNat) =
        decoder (quantize_lookup cb (encode_to_indices train cb ef encoder img))) := by
  have key : ∀ ids : List Nat, (∀ i ∈ ids, i < cb.length) →
      decode_ids cb (ids.map Int.ofNat) = quantize_lookup cb ids := by
    intro ids hids
    unfold decode_ids quantize_lookup quantize
    rw [List.map_map, List.map_map]
    apply List.map_congr_left
    intro i hi
    exact decode_ids_row_eq_lookup cb hd i (hids i hi)
  refine ⟨key, ?_⟩
  intro train ef encoder decoder img
  unfold decode_from_indices
  congr 1
  apply key
  intro i hi
  rw [encode_to_indices_eq] at hi
  exact vqIndices_lt cb (encoder img) hcb i hi

theorem decode_ids_agrees_witness :
    ([[(2 : ℚ)], [3]] : Grid) ≠ [] ∧
    (∀ c ∈ ([[(2 : ℚ)], [3]] : Grid), c.length = cbDim [[(2 : ℚ)], [3]]) ∧
    (∀ i ∈ [0, 1], i < ([[(2 : ℚ)], [3]] : Grid).length) ∧
    decode_ids [[(2 : ℚ)], [3]] ([0, 1].map Int.ofNat) = quantize_lookup [[(2 : ℚ)], [3]] [0, 1] :=
  ⟨by decide, by decide, by decide,
    (decode_ids_agrees [[(2 : ℚ)], [3]] (by decide) (by decide)).1 [0, 1] (by decide)⟩

/-- C10 counterexample: on the codebook `[[7], [8]]`, the index `-1` is
out of range and its nearest in-range index is `0`, whose row is `[7]`;
but `decode_ids` returns `[[8]]` — the last row, reached by the
Python-style wrap `-1 + 2 = 1` — and not `[[7]]`, so out-of-range input
does not yield the row at the nearest in-range index. -/
theorem decode_ids_total_counterexample :
    decode_ids [[(7 : ℚ)], [8]] [-1] = [[8]] ∧
    decode_ids [[(7 : ℚ)], [8]] [-1] ≠ [[7]] := by
  constructor
  · norm_num [decode_ids, takeIdx]
  · norm_num [decode_ids, takeIdx]

/-- C10 (amended): `decode_ids` is total on integer index tensors: every
returned vector is a genuine codebook row even for out-of-range indices.
`jnp.take`'s default handling first wraps a negative index Python-style
(adding `codebook_size`) and then clamps into range, so an in-range index
is used unchanged, an index in `[-codebook_size, -1]` yields the row at
`i + codebook_size`, an index below `-codebook_size` yields row `0`, and
an index `≥ codebook_size` yields the last row. -/
theorem decode_ids_total (cb : Grid) (hcb : cb ≠ []) (ids : List Int) :
    (∀ v ∈ decode_ids cb ids, v ∈ cb) ∧
    (∀ i : Int, 0 ≤ i → i < (cb.length : Int) → takeIdx cb.length i = i.toNat) ∧
    (∀ i : Int, -(cb.length : Int) ≤ i → i < 0 →
      takeIdx cb.length i = (i + (cb.length : Int)).toNat) ∧
    (∀ i : Int, i < -(cb.length : Int) → takeIdx cb.length i = 0) ∧
    (∀ i : Int, (cb.length : Int) ≤ i → takeIdx cb.length i = cb.length - 1) := by
  have hpos : 0 < cb.length := List.length_pos.mpr hcb
  refine ⟨?_, ?_, ?_, ?_, ?_⟩
  · intro v hv
    rcases List.mem_map.mp hv with ⟨i, _, hieq⟩
    have hlt : takeIdx cb.length i < cb.length := by
      unfold takeIdx
      split <;> omega
    rw [← hieq]
    exact getD_mem_of_lt [] cb _ hlt
  · intro i h0 hn
    unfold takeIdx
    rw [if_neg (by omega)]
    omega
  · intro i hlo hneg
    unfold takeIdx
    rw [if_pos hneg]
    omega
  · intro i hlo
    unfold takeIdx
    rw [if_pos (by omega)]
    omega
  · intro i hn
    unfold takeIdx
    rw [if_neg (by omega)]
    omega

theorem decode_ids_total_witness :
    ([[(7 : ℚ)], [8]] : Grid) ≠ [] ∧
    ((∀ v ∈ decode_ids [[(7 : ℚ)], [8]] [-1, -5, 0, 99], v ∈ ([[(7 : ℚ)], [8]] : Grid)) ∧
     (∀ i : Int, 0 ≤ i → i < (([[(7 : ℚ)], [8]] : Grid).length : Int) →
        takeIdx ([[(7 : ℚ)], [8]] : Grid).length i = i.toNat) ∧
     (∀ i : Int, -(([[(7 : ℚ)], [8]] : Grid).length : Int) ≤ i → i < 0 →
        takeIdx ([[(7 : ℚ)], [8]] : Grid).length i =
          (i + (([[(7 : ℚ)], [8]] : Grid).length : Int)).toNat) ∧
     (∀ i : Int, i < -(([[(7 : ℚ)], [8]] : Grid).length : Int) →
        takeIdx ([[(7 : ℚ)], [8]] : Grid).length i = 0) ∧
     (∀ i : Int, (([[(7 : ℚ)], [8]] : Grid).length : Int) ≤ i →
        takeIdx ([[(7 : ℚ)], [8]] : Grid).length i = ([[(7 : ℚ)], [8]] : Grid).length - 1)) :=
  ⟨by decide, decode_ids_total [[(7 : ℚ)], [8]] (by decide) [-1, -5, 0, 99]⟩

/-! ## Shape semantics of the encoder/decoder towers

`Encoder.__call__` and `Decoder.__call__` are built from external layer
capabilities (flax `nn.Conv` with SAME padding, `layers.dsample`,
`layers.upsample`, group norm, swish/sigmoid).  Their effect on tensor
shapes is modelled here; the loops and constants follow `networks.py`
(`filters = 128`, `num_res_blocks = 2`,
`channel_multipliers = [1, 1, 2, 2, 4]`, `embedding_dim = 10`,
`conv_downsample = False`, `output_dim = 3`). -/

/-- A tensor shape `(batch, height, width, channels)`. -/
structure Shape where
  b : Nat
  h : Nat
  w : Nat
  c : Nat
deriving DecidableEq

/-- Shape effect of flax `nn.Conv` (stride 1, SAME padding, any kernel):
spatial size preserved, channels set to `filters`. -/
def convShape (filters : Nat) (s : Shape) : Shape := ⟨s.b, s.h, s.w, filters⟩

/-- Modelled from the spec: `layers.dsample` (the `layers` module is not
under `src/`) is the parameter-free factor-2 downsampling operator, so it
halves the spatial resolution. -/
def dsampleShape (s : Shape) : Shape := ⟨s.b, s.h / 2, s.w / 2, s.c⟩

/-- Modelled from the spec: `layers.upsample(x, 2)` (the `layers` module
is not under `src/`) is the factor-2 upsampling operator, doubling the
spatial resolution. -/
def upsampleShape (s : Shape) : Shape := ⟨s.b, s.h * 2, s.w * 2, s.c⟩

/-- Shape effect of `ResBlock.__call__`: normalization and activation
preserve shape, the SAME 3×3 convolutions set `filters` channels, and the
shortcut addition keeps the branch shape. -/
def resBlockShape (filters : Nat) (s : Shape) : Shape := convShape filters s

/-- `self.channel_multipliers = [1, 1, 2, 2, 4]`. -/
def channel_multipliers : List Nat := [1, 1, 2, 2, 4]

/-- `self.embedding_dim = 10`. -/
def embedding_dim : Nat := 10

/-- Shape of `Encoder.__call__` (with `conv_downsample = False`): initial
3×3 convolution to 128 channels; five stages of two residual blocks, each
stage but the last followed by `dsample`; two final residual blocks;
norm → activate → 1×1 convolution to `embedding_dim` channels. -/
def encoderShape (s : Shape) : Shape :=
  let s1 := convShape 128 s
  let num_blocks := channel_multipliers.length
  let s2 := (List.range num_blocks).foldl (fun acc i =>
    let filters := 128 * channel_multipliers.getD i 1
    let acc2 := resBlockShape filters (resBlockShape filters acc)
    if i < num_blocks - 1 then dsampleShape acc2 else acc2) s1
  let filters := 128 * channel_multipliers.getD (num_blocks - 1) 1
  let s3 := resBlockShape filters (resBlockShape filters s2)
  convShape embedding_dim s3

/-- Shape of `Decoder.__call__`: initial 3×3 convolution to the widest
width (128·4); two residual blocks; the five stages in reverse, each with
two residual blocks and, except at stage 0, a 2× upsample followed by a
3×3 convolution; final norm → activate → 3×3 convolution to 3 channels
(sigmoid preserves shape). -/
def decoderShape (s : Shape) : Shape :=
  let num_blocks := channel_multipliers.length
  let filters0 := 128 * channel_multipliers.getD (num_blocks - 1) 1
  let s1 := convShape filters0 s
  let s2 := resBlockShape filters0 (resBlockShape filters0 s1)
  let s3 := ((List.range num_blocks).reverse).foldl (fun acc i =>
    let filters := 128 * channel_multipliers.getD i 1
    let acc2 := resBlockShape filters (resBlockShape filters acc)
    if 0 < i then convShape filters (upsampleShape acc2) else acc2) s2
  convShape 3 s3

/-- Modelled from the spec: the quantizer preserves the feature-grid
shape ("Quantized grid: tensor same shape as feature grid"); the active
`FSQ_Level2` quantizer lives in the `quantizers` module, absent from
`src/`. -/
def quantizerShape (s : Shape) : Shape := s

/-- Shape of the full `VQVAE.__call__` round trip:
encode → quantize → decode. -/
def vqvaeShape (s : Shape) : Shape := decoderShape (quantizerShape (encoderShape s))

/-- C9: for every input image shape `(B, H, W, 3)` with `H` and `W`
divisible by 16, the encoder's feature grid sits at 1/16 of the input
spatial resolution with `embedding_dim` channels (4 downsampling stages),
and the full autoencoder round trip through encoder, quantizer and
decoder returns shape `(B, H, W, 3)`. -/
theorem vqvae_shape_roundtrip (b h w : Nat) (hh : 16 ∣ h) (hw : 16 ∣ w) :
    encoderShape ⟨b, h, w, 3⟩ = ⟨b, h / 16, w / 16, embedding_dim⟩ ∧
    vqvaeShape ⟨b, h, w, 3⟩ = ⟨b, h, w, 3⟩ := by
  have e1 : encoderShape ⟨b, h, w, 3⟩ = ⟨b, h / 2 / 2 / 2 / 2, w / 2 / 2 / 2 / 2, 10⟩ := rfl
  have e2 : vqvaeShape ⟨b, h, w, 3⟩ =
      ⟨b, h / 2 / 2 / 2 / 2 * 2 * 2 * 2 * 2, w / 2 / 2 / 2 / 2 * 2 * 2 * 2 * 2, 3⟩ := rfl
  have hdd : ∀ n : Nat, 16 ∣ n →
      n / 2 / 2 / 2 / 2 = n / 16 ∧ n / 2 / 2 / 2 / 2 * 2 * 2 * 2 * 2 = n :=
    fun n hn => ⟨by omega, by omega⟩
  constructor
  · rw [e1, (hdd h hh).1, (hdd w hw).1]
    rfl
  · rw [e2, (hdd h hh).2, (hdd w hw).2]

theorem vqvae_shape_roundtrip_witness :
    (16 ∣ 32) ∧ (16 ∣ 16) ∧
    (encoderShape ⟨1, 32, 16, 3⟩ = ⟨1, 32 / 16, 16 / 16, embedding_dim⟩ ∧
     vqvaeShape ⟨1, 32, 16, 3⟩ = ⟨1, 32, 16, 3⟩) :=
  ⟨by decide, by decide, vqvae_shape_roundtrip 1 32 16 (by decide) (by decide)⟩

end MaskGit
